import Mathlib

/-!
Shallow embedding of the core algorithms of the `blender-texture2vgroup`
addon (`src/init.py`): texture analysis, color quantization, vertex-group
assignment and texture-driven weight painting.  Intensities, UV coordinates
and weights are modelled as exact rationals (`ℚ`); the Python/Numpy code
uses IEEE doubles, but every claim under study concerns exact structural
behaviour (bin indices, list lengths, orderings, clamping, naming), not
rounding.  Fallible Python operations (raising `ValueError`, `IndexError`,
`NameError`) are modelled with `Option`/`Except`.
-/

namespace VGTex

/-! ### Basic list min / max (Python `min`/`max`, numpy `np.min`/`np.max`) -/

/-- Minimum of a list of rationals; `Python min` / `np.min` raise on an empty
sequence, callers model that case separately (this returns a junk 0). -/
def listMin : List ℚ → ℚ
  | [] => 0
  | x :: xs => xs.foldl min x

/-- Maximum of a list of rationals (junk 0 on empty, see `listMin`). -/
def listMax : List ℚ → ℚ
  | [] => 0
  | x :: xs => xs.foldl max x

theorem foldl_min_le_init (xs : List ℚ) (x : ℚ) : xs.foldl min x ≤ x := by
  induction xs generalizing x with
  | nil => simp
  | cons y ys ih => exact le_trans (ih (min x y)) (min_le_left x y)

theorem foldl_min_le_mem (xs : List ℚ) (x a : ℚ) (ha : a ∈ xs) :
    xs.foldl min x ≤ a := by
  induction xs generalizing x with
  | nil => cases ha
  | cons y ys ih =>
    rcases List.mem_cons.mp ha with rfl | h
    · exact le_trans (foldl_min_le_init ys (min x a)) (min_le_right x a)
    · exact ih (min x y) h

theorem foldl_min_mem (xs : List ℚ) (x : ℚ) :
    xs.foldl min x = x ∨ xs.foldl min x ∈ xs := by
  induction xs generalizing x with
  | nil => left; rfl
  | cons y ys ih =>
    rcases ih (min x y) with h | h
    · rcases min_cases x y with ⟨he, _⟩ | ⟨he, _⟩
      · left; rw [List.foldl_cons, h, he]
      · right; rw [List.foldl_cons, h, he]; exact List.mem_cons_self y ys
    · right; exact List.mem_cons_of_mem y h

theorem listMin_le (l : List ℚ) (a : ℚ) (ha : a ∈ l) : listMin l ≤ a := by
  cases l with
  | nil => cases ha
  | cons x xs =>
    rcases List.mem_cons.mp ha with rfl | h
    · exact foldl_min_le_init xs a
    · exact foldl_min_le_mem xs x a h

theorem listMin_mem (l : List ℚ) (hl : l ≠ []) : listMin l ∈ l := by
  cases l with
  | nil => exact absurd rfl hl
  | cons x xs =>
    rcases foldl_min_mem xs x with h | h
    · rw [listMin, h]; exact List.mem_cons_self x xs
    · exact List.mem_cons_of_mem x h

theorem foldl_max_init_le (xs : List ℚ) (x : ℚ) : x ≤ xs.foldl max x := by
  induction xs generalizing x with
  | nil => simp
  | cons y ys ih => exact le_trans (le_max_left x y) (ih (max x y))

theorem foldl_max_mem_le (xs : List ℚ) (x a : ℚ) (ha : a ∈ xs) :
    a ≤ xs.foldl max x := by
  induction xs generalizing x with
  | nil => cases ha
  | cons y ys ih =>
    rcases List.mem_cons.mp ha with rfl | h
    · exact le_trans (le_max_right x a) (foldl_max_init_le ys (max x a))
    · exact ih (max x y) h

theorem foldl_max_mem (xs : List ℚ) (x : ℚ) :
    xs.foldl max x = x ∨ xs.foldl max x ∈ xs := by
  induction xs generalizing x with
  | nil => left; rfl
  | cons y ys ih =>
    rcases ih (max x y) with h | h
    · rcases max_cases x y with ⟨he, _⟩ | ⟨he, _⟩
      · left; rw [List.foldl_cons, h, he]
      · right; rw [List.foldl_cons, h, he]; exact List.mem_cons_self y ys
    · right; exact List.mem_cons_of_mem y h

theorem le_listMax (l : List ℚ) (a : ℚ) (ha : a ∈ l) : a ≤ listMax l := by
  cases l with
  | nil => cases ha
  | cons x xs =>
    rcases List.mem_cons.mp ha with rfl | h
    · exact foldl_max_init_le xs a
    · exact foldl_max_mem_le xs x a h

theorem listMax_mem (l : List ℚ) (hl : l ≠ []) : listMax l ∈ l := by
  cases l with
  | nil => exact absurd rfl hl
  | cons x xs =>
    rcases foldl_max_mem xs x with h | h
    · rw [listMax, h]; exact List.mem_cons_self x xs
    · exact List.mem_cons_of_mem x h

/-! ### `np.unique`: sorted list of the distinct values -/

/-- `np.unique`: the distinct values of the input in ascending order.
Modelled as insertion sort over the deduplicated list (the order in which
duplicates are removed is irrelevant after sorting). -/
def npUnique (l : List ℚ) : List ℚ := List.insertionSort (· ≤ ·) l.dedup

theorem npUnique_mem (l : List ℚ) (a : ℚ) : a ∈ npUnique l ↔ a ∈ l := by
  unfold npUnique
  rw [List.mem_insertionSort, List.mem_dedup]

theorem npUnique_nodup (l : List ℚ) : (npUnique l).Nodup :=
  (List.perm_insertionSort (· ≤ ·) l.dedup).nodup_iff.mpr l.nodup_dedup

theorem npUnique_sorted (l : List ℚ) : (npUnique l).Sorted (· ≤ ·) :=
  List.sorted_insertionSort (· ≤ ·) l.dedup

theorem npUnique_strict_sorted (l : List ℚ) :
    (npUnique l).Pairwise (· < ·) := by
  have h1 := npUnique_sorted l
  have h2 := npUnique_nodup l
  exact (List.Pairwise.and h1 h2).imp fun h => lt_of_le_of_ne h.1 h.2

theorem npUnique_ne_nil (l : List ℚ) (hl : l ≠ []) : npUnique l ≠ [] := by
  intro h
  rcases List.exists_mem_of_ne_nil l hl with ⟨a, ha⟩
  have : a ∈ npUnique l := (npUnique_mem l a).mpr ha
  rw [h] at this
  cases this

/-! ### Quantization (`quantize_colors`, src/init.py lines 167-171) -/

/-- `np.linspace lo hi num`: `num` evenly spaced points from `lo` to `hi`.
For `num = 1` numpy returns `[lo]`, matched here because the `i = 0` term
reduces to `lo` (division by zero yields 0 in `ℚ`). -/
def linspaceQ (lo hi : ℚ) (num : Nat) : List ℚ :=
  (List.range num).map (fun i : Nat => lo + (i : ℚ) * (hi - lo) / ((num : ℚ) - 1))

/-- `np.digitize c bins` for monotonically non-decreasing `bins`
(`right=False` default): the number of bin edges `≤ c`, i.e.
`np.searchsorted(bins, c, side='right')`. -/
def digitizeQ (c : ℚ) (bins : List ℚ) : Nat :=
  (bins.filter (fun b => decide (b ≤ c))).length

/-- `quantize_colors(colors, num_clusters)` (src/init.py lines 167-171):
bins `[min colors, max colors]` into `num_clusters` equal intervals via
`num_clusters + 1` linspace edges, maps every color to
`(digitize - 1) / (num_clusters - 1)` and returns the distinct results in
ascending order.  `np.min` of an empty array raises `ValueError`, modelled
as `none`.  For `num_clusters = 1` numpy divides by zero producing
non-finite floats with only a runtime warning (no exception); the `ℚ`
division by zero likewise yields a junk total value. -/
def quantize_colors (colors : List ℚ) (num_clusters : Nat) : Option (List ℚ) :=
  match colors with
  | [] => none
  | _ :: _ =>
    let lo := listMin colors
    let hi := listMax colors
    let bins := linspaceQ lo hi (num_clusters + 1)
    let qs := colors.map
      (fun c => (((digitizeQ c bins : Int) - 1 : Int) : ℚ) / ((num_clusters : ℚ) - 1))
    some (npUnique qs)

/-! ### Raster model and sampling -/

/-- A raster image as the host hands it over: `image.size[0] = width`,
`image.size[1] = height`, `image.channels`, and the flat `image.pixels`
buffer, reshaped by the code to `(height, width, channels)` row-major, so
pixel `(y, x)` occupies `channels` consecutive samples at offset
`(y * width + x) * channels`. -/
structure Raster where
  width : Nat
  height : Nat
  channels : Nat
  pixels : List ℚ

/-- Python `int(q)` on a float: truncation toward zero. -/
def truncInt (q : ℚ) : Int :=
  if 0 ≤ q then ⌊q⌋ else -⌊-q⌋

/-- Numpy integer indexing into an axis of length `n`: indices in
`[0, n)` index directly, indices in `[-n, 0)` index from the end, anything
else raises `IndexError` (modelled as `none`). -/
def normIdx (n : Nat) (i : Int) : Option Nat :=
  if 0 ≤ i ∧ i < (n : Int) then some i.toNat
  else if -(n : Int) ≤ i ∧ i < 0 then some (i + n).toNat
  else none

/-- The `channels` consecutive samples of pixel `(y, x)`:
`pixels[y, x]` after the `(height, width, channels)` reshape. -/
def pixelChunk (r : Raster) (y x : Nat) : List ℚ :=
  (r.pixels.drop ((y * r.width + x) * r.channels)).take r.channels

/-- Arithmetic mean of a list (`np.mean`). -/
def listMean (l : List ℚ) : ℚ := l.sum / (l.length : ℚ)

/-- The per-corner intensity sampler shared by `assign_vertex_groups`
(src/init.py lines 187-189) and `assign_weights_from_texture` (lines
223-225): `x, y = int(uv.x * (width - 1)), int(uv.y * (height - 1))` with
no clamping, then
`np.mean(pixels[y, x]) if image.channels > 1 else pixels[y, x, 0]` —
note the mean runs over ALL channels of the pixel.  Out-of-range indices
raise `IndexError` (`none`); negative indices within `[-n, 0)` read from
the opposite border, as in numpy. -/
def sampleCorner (r : Raster) (u v : ℚ) : Option ℚ :=
  let x := truncInt (u * ((r.width : ℚ) - 1))
  let y := truncInt (v * ((r.height : ℚ) - 1))
  match normIdx r.height y, normIdx r.width x with
  | some y', some x' =>
    let px := pixelChunk r y' x'
    if 1 < r.channels then some (listMean px) else px.head?
  | _, _ => none

/-! ### `analyze_texture` (src/init.py lines 160-165) -/

/-- The greyscale value the analysis pass computes at pixel `(y, x)`:
`np.mean(pixels[:, :, :3], axis=2) if channels > 1 else pixels[:, :, 0]` —
the mean of the FIRST THREE channels only (unlike `sampleCorner`). -/
def grayAt (r : Raster) (y x : Nat) : ℚ :=
  let px := pixelChunk r y x
  if 1 < r.channels then listMean (px.take 3) else px.headD 0

/-- `analyze_texture(image)` (src/init.py lines 160-165): reshape the
buffer (raising `ValueError` on a length mismatch, modelled as `none`),
reduce each pixel to greyscale via `grayAt`, and return `np.unique` of the
result. -/
def analyze_texture (r : Raster) : Option (List ℚ) :=
  if r.pixels.length = r.height * r.width * r.channels then
    some (npUnique ((List.range r.height).flatMap
      (fun y => (List.range r.width).map (fun x => grayAt r y x))))
  else none

/-! ### Mesh, vertex groups -/

/-- One face-corner (a Blender "loop"): the vertex it references and the
UV coordinate the active UV layer stores for it. -/
structure Corner where
  vertex : Nat
  u : ℚ
  v : ℚ

/-- The mesh data the two engines read: whether `mesh.uv_layers.active`
is set, and the polygons, each an ordered list of face-corners (the
source's `poly.loop_indices` resolved through `mesh.loops` and
`uv_layer`). -/
structure MeshData where
  hasActiveUV : Bool
  polygons : List (List Corner)

/-- The corners in iteration order of the nested
`for poly in mesh.polygons: for loop_idx in poly.loop_indices` loops. -/
def cornersOf (m : MeshData) : List Corner := m.polygons.flatten

/-- `obj.vertex_groups`: association list from group name to its
per-vertex weight entries, in creation order; each group's entries hold
each vertex index at most once (write semantics `'REPLACE'`). -/
abbrev VGroups := List (String × List (Nat × ℚ))

/-- The object handed to the engines: its mesh and its vertex groups. -/
structure Obj where
  mesh : MeshData
  vertex_groups : VGroups

/-- `obj.vertex_groups.get(name) or obj.vertex_groups.new(name=name)`:
reuse the group if the name exists, otherwise append a fresh empty one. -/
def vgGetOrNew (gs : VGroups) (name : String) : VGroups :=
  if gs.any (fun g => decide (g.1 = name)) then gs else gs ++ [(name, [])]

/-- `group.add([v], w, 'REPLACE')` on the entry list of one group:
overwrite the vertex's weight if present, else append. -/
def entryReplace (m : List (Nat × ℚ)) (v : Nat) (w : ℚ) : List (Nat × ℚ) :=
  if m.any (fun e => decide (e.1 = v)) then
    m.map (fun e => if e.1 = v then (v, w) else e)
  else m ++ [(v, w)]

/-- `group.add([v], w, 'REPLACE')` where `group` is the group named
`name` inside the full vertex-group list. -/
def vgReplace (gs : VGroups) (name : String) (v : Nat) (w : ℚ) : VGroups :=
  gs.map (fun g => if g.1 = name then (g.1, entryReplace g.2 v w) else g)

/-! ### Group Assignment Engine (`assign_vertex_groups`, src/init.py lines 173-206) -/

/-- Python `min(iterable, key=key)`: the first element attaining the
minimal key (later elements replace the best only on a strictly smaller
key); `min` of an empty iterable raises `ValueError` (`none`). -/
def pyMinKey (key : ℚ → ℚ) : List ℚ → Option ℚ
  | [] => none
  | x :: xs => some (xs.foldl (fun best c => if key c < key best then c else best) x)

/-- Python `sorted` on rationals, modelled by insertion sort. -/
def pySorted (l : List ℚ) : List ℚ := List.insertionSort (· ≤ ·) l

/-- Error message of the `raise ValueError` guarding both engines
(src/init.py lines 176 and 211). -/
def noUVMsg : String :=
  "No active UV map found. Please ensure the object has an active UV map."

/-- The per-level accumulator dict
`vertex_group_assignments = {color: set() for color in unique_colors}`:
one key per distinct color, each with its set of vertex indices.  (A
Python dict keeps first-occurrence key order; `List.dedup` keeps last
occurrences, which is immaterial because the keys are sorted before
use.) -/
abbrev AssignMap := List (ℚ × List Nat)

/-- Build the initial accumulator with every distinct color mapped to an
empty set. -/
def initAssignments (unique_colors : List ℚ) : AssignMap :=
  unique_colors.dedup.map (fun c => (c, []))

/-- `vertex_group_assignments[closest_color].add(vertex_index)`: set
insertion (no-op when the vertex is already present). -/
def asgAdd (asg : AssignMap) (c : ℚ) (v : Nat) : AssignMap :=
  asg.map (fun p => if p.1 = c then (p.1, if v ∈ p.2 then p.2 else p.2 ++ [v]) else p)

/-- Dict lookup `vertex_group_assignments[color]` (the key is always
present when reached from the sampling pass). -/
def lookupSet (asg : AssignMap) (c : ℚ) : List Nat :=
  match asg.find? (fun p => decide (p.1 = c)) with
  | some p => p.2
  | none => []

/-- The sampling pass of `assign_vertex_groups` (src/init.py lines
184-191): for each corner sample the intensity, pick the nearest color by
`min(unique_colors, key=lambda c: abs(c - pixel_value))`, and add the
corner's vertex to that color's set.  The second state component is the
value the loop variable `pixel_value` holds after the loop — the
intensity of the LAST corner processed over the whole mesh — which the
group-creation pass later reads. -/
def samplePass (r : Raster) (colors : List ℚ) :
    List Corner → AssignMap → Option ℚ → Except String (AssignMap × Option ℚ)
  | [], asg, pv? => .ok (asg, pv?)
  | cn :: rest, asg, _ =>
    match sampleCorner r cn.u cn.v with
    | none => .error "IndexError: index out of bounds"
    | some pv =>
      match pyMinKey (fun c => |c - pv|) colors with
      | none => .error "ValueError: min() arg is an empty sequence"
      | some cc => samplePass r colors rest (asgAdd asg cc cn.vertex) (some pv)

/-- Python `f"{n:02d}"` for a natural number: decimal digits zero-padded
to a minimum width of two. -/
def pad2 (n : Nat) : String :=
  let s := Nat.repr n
  if s.length < 2 then "0" ++ s else s

/-- The inner write loop of `assign_vertex_groups` (src/init.py lines
199-202): for each vertex of the level's set compute
`weight = 1.0 - abs(color - pixel_value)` — `pixel_value` being the
stale loop variable left over from the sampling pass — and
`group.add([vertex_index], weight, 'REPLACE')` when
`weight >= threshold`.  If `pixel_value` was never bound (a mesh with no
corners) Python would raise `NameError`; the error carries the
vertex-group state at the raise. -/
def writeGroupLoop (name : String) (color : ℚ) (pv? : Option ℚ) (thr : ℚ) :
    List Nat → VGroups → Except (String × VGroups) VGroups
  | [], gs => .ok gs
  | v :: rest, gs =>
    match pv? with
    | none => .error ("NameError: pixel_value is not defined", gs)
    | some pv =>
      let weight := 1 - |color - pv|
      writeGroupLoop name color pv? thr rest
        (if thr ≤ weight then vgReplace gs name v weight else gs)

/-- The group-creation pass of `assign_vertex_groups` (src/init.py lines
193-203): iterate `sorted(vertex_group_assignments.keys())` with the
`groups_created` counter `k`; a level whose set has at least
`min_group_size` members gets the group
`f"{base_group_name}.{groups_created+1:02d}"` (get-or-new) and its
weights written, then the counter advances; smaller levels are skipped
and do not advance the counter. -/
def createGroupsAux (asg : AssignMap) (pv? : Option ℚ) (thr : ℚ)
    (minSize : Nat) (base : String) :
    List ℚ → Nat → VGroups → Except (String × VGroups) VGroups
  | [], _, gs => .ok gs
  | c :: cs, k, gs =>
    let vs := lookupSet asg c
    if minSize ≤ vs.length then
      let name := base ++ "." ++ pad2 (k + 1)
      match writeGroupLoop name c pv? thr vs (vgGetOrNew gs name) with
      | .error e => .error e
      | .ok gs' => createGroupsAux asg pv? thr minSize base cs (k + 1) gs'
    else createGroupsAux asg pv? thr minSize base cs k gs

/-- `assign_vertex_groups(obj, unique_colors, image, threshold,
min_group_size, base_group_name)` (src/init.py lines 173-206).  The
result is the object's vertex-group list after the call; an error carries
the message and the vertex-group state at the raise (the no-UV guard
fires before any mutation). -/
def assign_vertex_groups (obj : Obj) (unique_colors : List ℚ) (img : Raster)
    (threshold : ℚ) (min_group_size : Nat) (base_group_name : String) :
    Except (String × VGroups) VGroups :=
  if obj.mesh.hasActiveUV = false then .error (noUVMsg, obj.vertex_groups)
  else if img.pixels.length ≠ img.height * img.width * img.channels then
    .error ("ValueError: cannot reshape", obj.vertex_groups)
  else
    match samplePass img unique_colors (cornersOf obj.mesh)
        (initAssignments unique_colors) none with
    | .error e => .error (e, obj.vertex_groups)
    | .ok (asg, pv?) =>
      createGroupsAux asg pv? threshold min_group_size base_group_name
        (pySorted (asg.map Prod.fst)) 0 obj.vertex_groups

/-! ### Weight Painting Engine (`assign_weights_from_texture`, src/init.py lines 208-241) -/

/-- The sampling loop of `assign_weights_from_texture` (src/init.py lines
219-226): record `(vertex_index, pixel_value)` for every corner in
iteration order. -/
def collectWeights (r : Raster) : List Corner → Except String (List (Nat × ℚ))
  | [] => .ok []
  | cn :: rest =>
    match sampleCorner r cn.u cn.v with
    | none => .error "IndexError: index out of bounds"
    | some pv =>
      match collectWeights r rest with
      | .error e => .error e
      | .ok ws => .ok ((cn.vertex, pv) :: ws)

/-- The normalization step (src/init.py lines 228-235): when `normalize`
is set, rescale every recorded sample by `(w - min) / (max - min)` if the
range is positive, else set every weight to `1.0`; `min()` of an empty
sequence raises `ValueError`. -/
def normalizeStep (normalize : Bool) (ws : List (Nat × ℚ)) :
    Except String (List (Nat × ℚ)) :=
  if normalize then
    match ws with
    | [] => .error "ValueError: min() arg is an empty sequence"
    | _ :: _ =>
      let mn := listMin (ws.map Prod.snd)
      let mx := listMax (ws.map Prod.snd)
      if 0 < mx - mn then .ok (ws.map (fun p => (p.1, (p.2 - mn) / (mx - mn))))
      else .ok (ws.map (fun p => (p.1, 1)))
  else .ok ws

/-- The final write loop (src/init.py lines 237-238): replace-write every
pair into the target group in order. -/
def writeWeights (gs : VGroups) (name : String) (ws : List (Nat × ℚ)) : VGroups :=
  ws.foldl (fun g p => vgReplace g name p.1 p.2) gs

/-- `assign_weights_from_texture(obj, image, group_name, normalize)`
(src/init.py lines 208-241).  The UV guard fires before the reshape and
before the get-or-new group creation; sampling or normalization errors
occur after the (possibly fresh) group exists. -/
def assign_weights_from_texture (obj : Obj) (img : Raster)
    (group_name : String) (normalize : Bool) :
    Except (String × VGroups) VGroups :=
  if obj.mesh.hasActiveUV = false then .error (noUVMsg, obj.vertex_groups)
  else if img.pixels.length ≠ img.height * img.width * img.channels then
    .error ("ValueError: cannot reshape", obj.vertex_groups)
  else
    let gs1 := vgGetOrNew obj.vertex_groups group_name
    match collectWeights img (cornersOf obj.mesh) with
    | .error e => .error (e, gs1)
    | .ok ws =>
      match normalizeStep normalize ws with
      | .error e => .error (e, gs1)
      | .ok ws' => .ok (writeWeights gs1 group_name ws')

/-! ### Helper lemmas for the flat (lo = hi) quantization case -/

theorem linspace_self_mem (c : ℚ) (n : Nat) (b : ℚ)
    (hb : b ∈ linspaceQ c c n) : b = c := by
  unfold linspaceQ at hb
  rcases List.mem_map.mp hb with ⟨i, _, rfl⟩
  ring_nf

theorem linspace_length (lo hi : ℚ) (n : Nat) : (linspaceQ lo hi n).length = n := by
  simp [linspaceQ]

theorem digitize_flat (c : ℚ) (n : Nat) : digitizeQ c (linspaceQ c c n) = n := by
  unfold digitizeQ
  rw [List.filter_eq_self.mpr, linspace_length]
  intro b hb
  rw [linspace_self_mem c n b hb]
  simp

/-- C2 (corrected): on the flat single-value input `{0.5}` with `K = 4`
the quantizer returns `{4/3}`, not the `{0.0}` the claim states: all
`K + 1` linspace edges coincide, `np.digitize` reports every input past
the last edge (index `K + 1`), and `(K + 1 - 1) / (K - 1) = 4/3`. -/
theorem quantize_flat_counterexample :
    quantize_colors [(1 : ℚ)/2] 4 = some [4/3] ∧
      quantize_colors [(1 : ℚ)/2] 4 ≠ some [0] := by
  constructor
  · norm_num [quantize_colors, npUnique, linspaceQ, digitizeQ, listMin, listMax,
      List.insertionSort, List.orderedInsert, List.range_succ, List.filter]
  · norm_num [quantize_colors, npUnique, linspaceQ, digitizeQ, listMin, listMax,
      List.insertionSort, List.orderedInsert, List.range_succ, List.filter]

/-- C2 (amended): for every single-value intensity input `[c]` and every
`K ≥ 2`, `quantize_colors` returns the single-element level set
`{K / (K - 1)}` — a value strictly greater than 1 — and does not fault:
no division by zero occurs because the divisor is `K - 1 ≥ 1` (the
degenerate geometry is in the all-equal bin edges, not the divisor). -/
theorem quantize_flat_levels (c : ℚ) (K : Nat) (_hK : 2 ≤ K) :
    quantize_colors [c] K = some [(K : ℚ) / ((K : ℚ) - 1)] := by
  unfold quantize_colors
  have hmin : listMin [c] = c := rfl
  have hmax : listMax [c] = c := rfl
  rw [hmin, hmax]
  have hd : digitizeQ c (linspaceQ c c (K + 1)) = K + 1 := digitize_flat c (K + 1)
  simp only [List.map_cons, List.map_nil, hd]
  have hcast : (((K + 1 : Nat) : Int) - 1 : Int) = (K : Int) := by push_cast; ring
  rw [hcast]
  have : npUnique [((K : Int) : ℚ) / ((K : ℚ) - 1)] = [((K : Int) : ℚ) / ((K : ℚ) - 1)] := by
    unfold npUnique
    simp [List.insertionSort]
  rw [this]
  push_cast
  rfl

/-- Witness for `quantize_flat_levels` at `c = 0.5`, `K = 4`. -/
theorem quantize_flat_levels_witness :
    2 ≤ 4 ∧ quantize_colors [(1 : ℚ)/2] 4 = some [(4 : ℚ) / ((4 : ℚ) - 1)] :=
  ⟨by norm_num, quantize_flat_levels ((1 : ℚ)/2) 4 (by norm_num)⟩

/-- C9 (corrected): the claim says invoking quantization with `K < 2`
fails with an invalid-configuration error; in fact `quantize_colors`
performs no validation of `K` at all and returns a result for `K = 1`
(numpy merely emits a divide-by-zero RuntimeWarning and produces
non-finite levels — no exception is raised). -/
theorem quantize_no_k_validation_counterexample :
    (quantize_colors [(1 : ℚ)/2] 1).isSome = true := rfl

/-- C9 (amended): `quantize_colors` returns a result for every non-empty
input and EVERY cluster count, including `K < 2`; the `K ≥ 2` minimum is
enforced only by the host-side operator property `num_clusters`
(`min=2`), never by the quantization operation itself. -/
theorem quantize_total_for_all_k (colors : List ℚ) (K : Nat)
    (h : colors ≠ []) : (quantize_colors colors K).isSome = true := by
  cases colors with
  | nil => exact absurd rfl h
  | cons x xs => rfl

/-- Witness for `quantize_total_for_all_k` at input `[0.5]`, `K = 0`. -/
theorem quantize_total_for_all_k_witness :
    ([(1 : ℚ)/2] ≠ []) ∧ (quantize_colors [(1 : ℚ)/2] 0).isSome = true :=
  ⟨by simp, quantize_total_for_all_k [(1 : ℚ)/2] 0 (by simp)⟩

/-- C6 (confirmed): on a mesh with no active UV layer both engines fail
with the no-active-UV-map `ValueError` before any mutation: the error
state carries the object's vertex groups unchanged, so zero groups are
created. -/
theorem missing_uv_no_mutation (obj : Obj) (colors : List ℚ) (img : Raster)
    (thr : ℚ) (minSize : Nat) (base gname : String) (norm : Bool)
    (h : obj.mesh.hasActiveUV = false) :
    assign_vertex_groups obj colors img thr minSize base =
        .error (noUVMsg, obj.vertex_groups) ∧
      assign_weights_from_texture obj img gname norm =
        .error (noUVMsg, obj.vertex_groups) := by
  unfold assign_vertex_groups assign_weights_from_texture
  rw [h]
  exact ⟨rfl, rfl⟩

/-- Witness for `missing_uv_no_mutation` on a concrete object that
already owns one group named "old". -/
theorem missing_uv_no_mutation_witness :
    (Obj.mk ⟨false, [[⟨0, 0, 0⟩]]⟩ [("old", [(5, 1)])]).mesh.hasActiveUV = false ∧
      assign_vertex_groups (Obj.mk ⟨false, [[⟨0, 0, 0⟩]]⟩ [("old", [(5, 1)])])
          [0, 1] ⟨2, 1, 1, [0, 1]⟩ 0 1 "group" =
        .error (noUVMsg, [("old", [(5, 1)])]) ∧
      assign_weights_from_texture (Obj.mk ⟨false, [[⟨0, 0, 0⟩]]⟩ [("old", [(5, 1)])])
          ⟨2, 1, 1, [0, 1]⟩ "W" true =
        .error (noUVMsg, [("old", [(5, 1)])]) :=
  ⟨rfl,
    (missing_uv_no_mutation (Obj.mk ⟨false, [[⟨0, 0, 0⟩]]⟩ [("old", [(5, 1)])])
      [0, 1] ⟨2, 1, 1, [0, 1]⟩ 0 1 "group" "W" true rfl).1,
    (missing_uv_no_mutation (Obj.mk ⟨false, [[⟨0, 0, 0⟩]]⟩ [("old", [(5, 1)])])
      [0, 1] ⟨2, 1, 1, [0, 1]⟩ 0 1 "group" "W" true rfl).2⟩

/-- C1 (counterexample): on the distinct intensity set `{0, 1/2, 1}` with
`K = 2` the quantizer returns THREE levels `{0, 1, 2}` — more than `K` —
and the top level `2 = K/(K-1)` lies outside `[0, 1]`: `np.digitize`
places the maximum input past the last bin edge (index `K + 1`), so bin
indices range over `0..K`, not `0..K-1`. -/
theorem quantize_range_counterexample :
    quantize_colors [0, 1/2, 1] 2 = some [0, 1, 2] ∧
      ¬ (([(0 : ℚ), 1, 2]).length ≤ 2) ∧
      ¬ (∀ x ∈ [(0 : ℚ), 1, 2], x ≤ 1) := by
  refine ⟨?_, by simp, ?_⟩
  · norm_num [quantize_colors, npUnique, linspaceQ, digitizeQ, listMin, listMax,
      List.insertionSort, List.orderedInsert, List.range_succ, List.filter,
      List.dedup_cons_of_mem, List.dedup_cons_of_not_mem]
  · intro h
    have := h 2 (by simp)
    norm_num at this

/-- C4 (counterexample): on a 1×1 RGBA raster holding `(1, 0, 0, 0)` the
engines' shared sampler returns the mean over ALL FOUR channels, `1/4`,
not the RGB-only mean `1/3` that the claim states (which is what only
`analyze_texture` computes). -/
theorem sampler_rgb_mean_counterexample :
    sampleCorner ⟨1, 1, 4, [1, 0, 0, 0]⟩ 0 0 = some (1/4) ∧
      grayAt ⟨1, 1, 4, [1, 0, 0, 0]⟩ 0 0 = 1/3 ∧
      ((1 : ℚ)/4 ≠ 1/3) := by
  refine ⟨?_, ?_, by norm_num⟩
  · norm_num [sampleCorner, grayAt, pixelChunk, listMean, truncInt, normIdx]
  · norm_num [sampleCorner, grayAt, pixelChunk, listMean, truncInt, normIdx]

/-- C4 (amended): for a multi-channel raster the group-assignment and
weight-painting samplers use the arithmetic mean of ALL `C` channels of
the pixel (alpha and extra channels included), while only
`analyze_texture`'s greyscale pass uses the mean of the first 3 channels;
for `C = 1` both use the single channel value. -/
theorem sampler_channel_mean (r : Raster) (u v : ℚ) (y' x' : Nat)
    (hy : normIdx r.height (truncInt (v * ((r.height : ℚ) - 1))) = some y')
    (hx : normIdx r.width (truncInt (u * ((r.width : ℚ) - 1))) = some x') :
    (1 < r.channels →
      sampleCorner r u v = some (listMean (pixelChunk r y' x')) ∧
        grayAt r y' x' = listMean ((pixelChunk r y' x').take 3)) ∧
      (r.channels = 1 →
        sampleCorner r u v = (pixelChunk r y' x').head? ∧
          grayAt r y' x' = (pixelChunk r y' x').headD 0) := by
  constructor
  · intro hC
    constructor
    · simp only [sampleCorner, hy, hx]
      simp [hC]
    · unfold grayAt
      simp [hC]
  · intro hC
    constructor
    · simp only [sampleCorner, hy, hx]
      simp [hC]
    · unfold grayAt
      simp [hC]

/-- Witness for `sampler_channel_mean` on the 1×1 RGBA raster
`(1, 0, 0, 0)` at UV `(0, 0)`. -/
theorem sampler_channel_mean_witness :
    normIdx 1 (truncInt ((0 : ℚ) * ((1 : ℚ) - 1))) = some 0 ∧
      (1 < 4 →
        sampleCorner ⟨1, 1, 4, [1, 0, 0, 0]⟩ 0 0 =
            some (listMean (pixelChunk ⟨1, 1, 4, [1, 0, 0, 0]⟩ 0 0)) ∧
          grayAt ⟨1, 1, 4, [1, 0, 0, 0]⟩ 0 0 =
            listMean ((pixelChunk ⟨1, 1, 4, [1, 0, 0, 0]⟩ 0 0).take 3)) ∧
      (4 = 1 →
        sampleCorner ⟨1, 1, 4, [1, 0, 0, 0]⟩ 0 0 =
            (pixelChunk ⟨1, 1, 4, [1, 0, 0, 0]⟩ 0 0).head? ∧
          grayAt ⟨1, 1, 4, [1, 0, 0, 0]⟩ 0 0 =
            (pixelChunk ⟨1, 1, 4, [1, 0, 0, 0]⟩ 0 0).headD 0) :=
  ⟨by norm_num [normIdx, truncInt],
    (sampler_channel_mean ⟨1, 1, 4, [1, 0, 0, 0]⟩ 0 0 0 0
      (by norm_num [normIdx, truncInt]) (by norm_num [normIdx, truncInt])).1,
    (sampler_channel_mean ⟨1, 1, 4, [1, 0, 0, 0]⟩ 0 0 0 0
      (by norm_num [normIdx, truncInt]) (by norm_num [normIdx, truncInt])).2⟩

/-- C5 (counterexample): the sampler does NOT clamp UV coordinates.  On a
2×1 raster with pixels `[0, 1]`, `u = 2` maps to pixel index 2 and raises
`IndexError` (the claim says sampling never faults), and `u = -1` maps to
index `-1`, which numpy resolves to the OPPOSITE border pixel (value 1),
not the `u = 0` border pixel (value 0) that clamping would read. -/
theorem sampler_no_clamp_counterexample :
    sampleCorner ⟨2, 1, 1, [0, 1]⟩ 2 0 = none ∧
      sampleCorner ⟨2, 1, 1, [0, 1]⟩ (-1) 0 = some 1 ∧ (1 : ℚ) ≠ 0 := by
  refine ⟨?_, ?_, by norm_num⟩
  · norm_num [sampleCorner, pixelChunk, listMean, truncInt, normIdx]
  · norm_num [sampleCorner, pixelChunk, listMean, truncInt, normIdx]

/-- C3 (code bug): the weight written for a vertex is NOT
`1.0 - |level - last intensity sampled at that vertex's own corners|`.
The code computes `weight = 1.0 - abs(color - pixel_value)` from the
loop variable `pixel_value` left over from the sampling pass, i.e. the
intensity of the final face-corner processed over the WHOLE mesh.
Failing input: a 2×1 one-channel raster `[0, 1]` and two corners, vertex
0 at `u = 0` (its only sample is intensity 0, nearest level 0) and vertex
1 at `u = 1` (sample 1, nearest level 1), with `threshold = 0`,
`min_group_size = 1`.  Vertex 0's own last sampled intensity is 0, so the
claim predicts weight `1.0 - |0 - 0| = 1.0` in `group.01`; the code
writes `1.0 - |0 - 1| = 0.0`, as this evaluation shows. -/
theorem assign_groups_stale_pixel_value_eval :
    assign_vertex_groups ⟨⟨true, [[⟨0, 0, 0⟩, ⟨1, 1, 0⟩]]⟩, []⟩ [0, 1]
          ⟨2, 1, 1, [0, 1]⟩ 0 1 "group" =
        .ok [("group.01", [(0, 0)]), ("group.02", [(1, 1)])] ∧
      (0 : ℚ) ≠ 1 := by
  refine ⟨?_, by norm_num⟩
  norm_num [assign_vertex_groups, samplePass, createGroupsAux, cornersOf,
    initAssignments, asgAdd, lookupSet, pyMinKey, pySorted, sampleCorner,
    pixelChunk, listMean, truncInt, normIdx, writeGroupLoop, vgGetOrNew,
    vgReplace, entryReplace, pad2, noUVMsg, List.insertionSort,
    List.orderedInsert, List.dedup_cons_of_mem, List.dedup_cons_of_not_mem,
    List.filter, List.find?]
  rfl

theorem trunc_unit_scale (n : Nat) (t : ℚ) (hn : 1 ≤ n) (h0 : 0 ≤ t)
    (h1 : t ≤ 1) :
    ∃ k : Nat, normIdx n (truncInt (t * ((n : ℚ) - 1))) = some k ∧ k < n := by
  set q : ℚ := t * ((n : ℚ) - 1) with hq
  have hsub : (0 : ℚ) ≤ (n : ℚ) - 1 := by
    have : (1 : ℚ) ≤ (n : ℚ) := by exact_mod_cast hn
    linarith
  have hq0 : 0 ≤ q := mul_nonneg h0 hsub
  have hq1 : q ≤ (n : ℚ) - 1 := by
    calc q ≤ 1 * ((n : ℚ) - 1) := by
          exact mul_le_mul_of_nonneg_right h1 hsub
      _ = (n : ℚ) - 1 := one_mul _
  have htr : truncInt q = ⌊q⌋ := if_pos hq0
  have hfl0 : 0 ≤ ⌊q⌋ := Int.floor_nonneg.mpr hq0
  have hfln : ⌊q⌋ < (n : Int) := by
    apply Int.floor_lt.mpr
    have : ((n : Int) : ℚ) = (n : ℚ) := by push_cast; rfl
    rw [this]
    linarith
  refine ⟨(⌊q⌋).toNat, ?_, ?_⟩
  · rw [htr]
    unfold normIdx
    rw [if_pos ⟨hfl0, hfln⟩]
  · exact (Int.toNat_lt' (by omega)).mpr (by omega)

theorem pixelChunk_length (r : Raster) (y' x' : Nat)
    (hlen : r.pixels.length = r.height * r.width * r.channels)
    (hy : y' < r.height) (hx : x' < r.width) :
    (pixelChunk r y' x').length = r.channels := by
  unfold pixelChunk
  rw [List.length_take, List.length_drop, hlen]
  have h1 : y' * r.width + x' + 1 ≤ r.height * r.width := by
    calc y' * r.width + x' + 1 ≤ y' * r.width + r.width := by omega
      _ = (y' + 1) * r.width := by ring
      _ ≤ r.height * r.width := Nat.mul_le_mul_right _ hy
  have h2 : (y' * r.width + x') * r.channels + r.channels ≤
      r.height * r.width * r.channels := by
    calc (y' * r.width + x') * r.channels + r.channels
        = (y' * r.width + x' + 1) * r.channels := by ring
      _ ≤ (r.height * r.width) * r.channels := Nat.mul_le_mul_right _ h1
  omega

/-- C5 (amended): the sampler performs NO clamping of UV coordinates.
What does hold: for `u, v` already inside `[0, 1]` on a well-formed
raster (positive dimensions, buffer length `W·H·C`), the computed pixel
indices stay in range and sampling always returns a value.  UVs outside
`[0, 1]` are not clamped to the border: they can raise `IndexError`
(index at or past the axis length) or read the opposite border through
numpy's negative indexing, as `sampler_no_clamp_counterexample` shows. -/
theorem sampler_inrange_safe (r : Raster) (u v : ℚ)
    (hW : 1 ≤ r.width) (hH : 1 ≤ r.height) (hC : 1 ≤ r.channels)
    (hlen : r.pixels.length = r.height * r.width * r.channels)
    (hu0 : 0 ≤ u) (hu1 : u ≤ 1) (hv0 : 0 ≤ v) (hv1 : v ≤ 1) :
    (sampleCorner r u v).isSome = true := by
  obtain ⟨x', hx, hxlt⟩ := trunc_unit_scale r.width u hW hu0 hu1
  obtain ⟨y', hy, hylt⟩ := trunc_unit_scale r.height v hH hv0 hv1
  simp only [sampleCorner, hy, hx]
  by_cases h : 1 < r.channels
  · simp [h]
  · have hplen : (pixelChunk r y' x').length = r.channels :=
      pixelChunk_length r y' x' hlen hylt hxlt
    have hne : pixelChunk r y' x' ≠ [] := by
      intro hnil
      rw [hnil] at hplen
      simp at hplen
      omega
    obtain ⟨a, as, hcons⟩ := List.exists_cons_of_ne_nil hne
    simp [h, hcons]

/-- Witness for `sampler_inrange_safe`: the 2×1 raster `[0, 1]` sampled
at the in-range UV `(1, 0)`. -/
theorem sampler_inrange_safe_witness :
    (1 ≤ 2 ∧ (0 : ℚ) ≤ 1) ∧
      (sampleCorner ⟨2, 1, 1, [0, 1]⟩ 1 0).isSome = true :=
  ⟨⟨by norm_num, by norm_num⟩,
    sampler_inrange_safe ⟨2, 1, 1, [0, 1]⟩ 1 0 (by norm_num) (by norm_num)
      (by norm_num) (by norm_num) (by norm_num) (by norm_num) (by norm_num)
      (by norm_num)⟩

theorem collectWeights_length (r : Raster) (cs : List Corner)
    (ws : List (Nat × ℚ)) (h : collectWeights r cs = .ok ws) :
    ws.length = cs.length := by
  induction cs generalizing ws with
  | nil =>
    unfold collectWeights at h
    simp at h
    simp [← h]
  | cons c rest ih =>
    unfold collectWeights at h
    cases hsc : sampleCorner r c.u c.v with
    | none => rw [hsc] at h; simp at h
    | some pv =>
      rw [hsc] at h
      cases hcw : collectWeights r rest with
      | error e => rw [hcw] at h; simp at h
      | ok ws' =>
        rw [hcw] at h
        simp at h
        rw [← h]
        simp [ih ws' hcw]

/-- C8 (confirmed): with `normalize = true` on a mesh with at least one
face-corner, the rescaled sample list `ns` that the engine subsequently
writes has minimum exactly 0 and maximum exactly 1 whenever the sampled
intensities have nonzero range, and every weight equals 1 when the range
is zero. -/
theorem normalize_minmax (obj : Obj) (img : Raster) (ws ns : List (Nat × ℚ))
    (hcorners : cornersOf obj.mesh ≠ [])
    (hws : collectWeights img (cornersOf obj.mesh) = .ok ws)
    (hns : normalizeStep true ws = .ok ns) :
    (0 < listMax (ws.map Prod.snd) - listMin (ws.map Prod.snd) →
      listMin (ns.map Prod.snd) = 0 ∧ listMax (ns.map Prod.snd) = 1) ∧
      (listMax (ws.map Prod.snd) - listMin (ws.map Prod.snd) = 0 →
        ∀ p ∈ ns, p.2 = 1) := by
  have hwsne : ws ≠ [] := by
    intro hnil
    have := collectWeights_length img (cornersOf obj.mesh) ws hws
    rw [hnil] at this
    exact hcorners (List.length_eq_zero.mp this.symm)
  set l : List ℚ := ws.map Prod.snd with hl
  have hlne : l ≠ [] := by
    rw [hl]
    simpa using hwsne
  set mn : ℚ := listMin l with hmn
  set mx : ℚ := listMax l with hmx
  obtain ⟨w, ws', rfl⟩ := List.exists_cons_of_ne_nil hwsne
  constructor
  · intro hrng
    have hns' : ns = ((w :: ws').map (fun p => (p.1, (p.2 - mn) / (mx - mn)))) := by
      unfold normalizeStep at hns
      rw [if_pos rfl] at hns
      simp only [← hl, ← hmn, ← hmx] at hns
      rw [if_pos hrng] at hns
      exact (Except.ok.injEq _ _).mp hns.symm
    have hmap : ns.map Prod.snd = l.map (fun b => (b - mn) / (mx - mn)) := by
      rw [hns', hl]
      simp [List.map_map, Function.comp]
    have hmapne : l.map (fun b => (b - mn) / (mx - mn)) ≠ [] := by
      simpa using hlne
    constructor
    · rw [hmap]
      apply le_antisymm
      · have h0mem : (0 : ℚ) ∈ l.map (fun b => (b - mn) / (mx - mn)) := by
          apply List.mem_map.mpr
          exact ⟨mn, listMin_mem l hlne, by rw [sub_self, zero_div]⟩
        exact listMin_le _ 0 h0mem
      · have hmem := listMin_mem _ hmapne
        rcases List.mem_map.mp hmem with ⟨b, hb, heq⟩
        rw [← heq]
        apply div_nonneg _ (le_of_lt hrng)
        have := listMin_le l b hb
        linarith
    · rw [hmap]
      apply le_antisymm
      · have hmem := listMax_mem _ hmapne
        rcases List.mem_map.mp hmem with ⟨b, hb, heq⟩
        rw [← heq]
        rw [div_le_one hrng]
        have := le_listMax l b hb
        linarith
      · have h1mem : (1 : ℚ) ∈ l.map (fun b => (b - mn) / (mx - mn)) := by
          apply List.mem_map.mpr
          exact ⟨mx, listMax_mem l hlne, div_self (ne_of_gt hrng)⟩
        exact le_listMax _ 1 h1mem
  · intro hrng
    have hns' : ns = ((w :: ws').map (fun p => (p.1, (1 : ℚ)))) := by
      unfold normalizeStep at hns
      rw [if_pos rfl] at hns
      simp only [← hl, ← hmn, ← hmx] at hns
      rw [if_neg (by rw [hrng]; exact lt_irrefl 0)] at hns
      exact (Except.ok.injEq _ _).mp hns.symm
    intro p hp
    rw [hns'] at hp
    rcases List.mem_map.mp hp with ⟨q, _, heq⟩
    rw [← heq]

/-- Witness for `normalize_minmax`: the one-quad object over the 2×1
raster `[0, 1]` yields samples `{0, 1}` (range 1), rescaled to min 0 and
max 1. -/
theorem normalize_minmax_witness :
    collectWeights ⟨2, 1, 1, [0, 1]⟩
        (cornersOf (MeshData.mk true [[⟨0, 0, 0⟩, ⟨1, 1, 0⟩]])) =
      .ok [(0, 0), (1, 1)] ∧
    normalizeStep true [(0, 0), (1, 1)] = .ok [(0, 0), (1, 1)] ∧
    (0 < listMax ([((0 : Nat), (0 : ℚ)), (1, 1)].map Prod.snd) -
          listMin ([((0 : Nat), (0 : ℚ)), (1, 1)].map Prod.snd) →
      listMin ([((0 : Nat), (0 : ℚ)), (1, 1)].map Prod.snd) = 0 ∧
        listMax ([((0 : Nat), (0 : ℚ)), (1, 1)].map Prod.snd) = 1) := by
  have h1 : collectWeights ⟨2, 1, 1, [0, 1]⟩
      (cornersOf (MeshData.mk true [[⟨0, 0, 0⟩, ⟨1, 1, 0⟩]])) =
        .ok [(0, 0), (1, 1)] := by
    norm_num [collectWeights, cornersOf, sampleCorner, pixelChunk, listMean,
      truncInt, normIdx]
  have h2 : normalizeStep true [((0 : Nat), (0 : ℚ)), (1, 1)] =
      .ok [(0, 0), (1, 1)] := by
    norm_num [normalizeStep, listMin, listMax]
  refine ⟨h1, h2, ?_⟩
  intro hrng
  exact (normalize_minmax ⟨⟨true, [[⟨0, 0, 0⟩, ⟨1, 1, 0⟩]]⟩, []⟩
    ⟨2, 1, 1, [0, 1]⟩ [(0, 0), (1, 1)] [(0, 0), (1, 1)]
    (by simp [cornersOf]) h1 h2).1 hrng

theorem linspace_lo_mem (lo hi : ℚ) (n : Nat) (hn : 1 ≤ n) :
    lo ∈ linspaceQ lo hi n := by
  unfold linspaceQ
  apply List.mem_map.mpr
  refine ⟨0, List.mem_range.mpr (by omega), ?_⟩
  simp

theorem digitize_ge_one (c lo hi : ℚ) (n : Nat) (hn : 1 ≤ n)
    (hlo : lo ≤ c) : 1 ≤ digitizeQ c (linspaceQ lo hi n) := by
  unfold digitizeQ
  have hmem : lo ∈ (linspaceQ lo hi n).filter (fun b => decide (b ≤ c)) :=
    List.mem_filter.mpr ⟨linspace_lo_mem lo hi n hn, by simpa using hlo⟩
  exact List.length_pos.mpr (List.ne_nil_of_mem hmem)

theorem digitize_le_length (c : ℚ) (bins : List ℚ) :
    digitizeQ c bins ≤ bins.length :=
  List.length_filter_le _ _

/-- C1 (amended): for every non-empty set of distinct intensities in
`[0,1]` and every `K ≥ 2`, `quantize_colors` returns between 1 and
`K + 1` levels (one more than the claim's `K`: `np.digitize` assigns the
maximum input to an extra overflow bin), each lying in `[0, K/(K-1)]`
(the top representative exceeds 1), in strictly increasing order. -/
theorem quantize_levels_bounds (colors : List ℚ) (K : Nat) (ls : List ℚ)
    (hne : colors ≠ []) (_hnd : colors.Nodup)
    (_hrange : ∀ c ∈ colors, 0 ≤ c ∧ c ≤ 1) (hK : 2 ≤ K)
    (hq : quantize_colors colors K = some ls) :
    1 ≤ ls.length ∧ ls.length ≤ K + 1 ∧
      (∀ x ∈ ls, 0 ≤ x ∧ x ≤ (K : ℚ) / ((K : ℚ) - 1)) ∧
      ls.Pairwise (· < ·) := by
  obtain ⟨c0, rest, rfl⟩ := List.exists_cons_of_ne_nil hne
  set colors : List ℚ := c0 :: rest with hcolors
  set lo : ℚ := listMin colors with hlo
  set hi : ℚ := listMax colors with hhi
  set bins : List ℚ := linspaceQ lo hi (K + 1) with hbins
  set f : ℚ → ℚ :=
    fun c => (((digitizeQ c bins : Int) - 1 : Int) : ℚ) / ((K : ℚ) - 1) with hf
  have hq' : npUnique (colors.map f) = ls := by
    unfold quantize_colors at hq
    simp only [← hlo, ← hhi, ← hbins, ← hf] at hq
    exact (Option.some.injEq _ _).mp hq
  have hKpos : (0 : ℚ) < (K : ℚ) - 1 := by
    have : (2 : ℚ) ≤ (K : ℚ) := by exact_mod_cast hK
    linarith
  have hmapne : colors.map f ≠ [] := by simp [hcolors]
  refine ⟨?_, ?_, ?_, ?_⟩
  · rw [← hq']
    exact List.length_pos.mpr (npUnique_ne_nil _ hmapne)
  · rw [← hq']
    have hsub : npUnique (colors.map f) ⊆
        (List.range (K + 1)).map (fun i : Nat => (i : ℚ) / ((K : ℚ) - 1)) := by
      intro x hx
      rcases List.mem_map.mp ((npUnique_mem _ x).mp hx) with ⟨c, hc, rfl⟩
      have hd1 : 1 ≤ digitizeQ c bins := by
        rw [hbins]
        exact digitize_ge_one c lo hi (K + 1) (by omega) (listMin_le colors c hc)
      have hd2 : digitizeQ c bins ≤ K + 1 := by
        have := digitize_le_length c bins
        rw [hbins, linspace_length] at this
        exact this
      apply List.mem_map.mpr
      refine ⟨digitizeQ c bins - 1, List.mem_range.mpr (by omega), ?_⟩
      rw [hf]
      congr 1
      have : ((digitizeQ c bins : Int) - 1 : Int) =
          ((digitizeQ c bins - 1 : Nat) : Int) := by omega
      rw [this]
      push_cast
      rfl
    have hlen := List.Subperm.length_le
      (List.subperm_of_subset (npUnique_nodup _) hsub)
    simpa using hlen
  · intro x hx
    rw [← hq'] at hx
    rcases List.mem_map.mp ((npUnique_mem _ x).mp hx) with ⟨c, hc, rfl⟩
    have hd1 : 1 ≤ digitizeQ c bins := by
      rw [hbins]
      exact digitize_ge_one c lo hi (K + 1) (by omega) (listMin_le colors c hc)
    have hd2 : digitizeQ c bins ≤ K + 1 := by
      have := digitize_le_length c bins
      rw [hbins, linspace_length] at this
      exact this
    have hnum0 : (0 : ℚ) ≤ (((digitizeQ c bins : Int) - 1 : Int) : ℚ) := by
      have : (0 : Int) ≤ (digitizeQ c bins : Int) - 1 := by omega
      exact_mod_cast this
    have hnumK : (((digitizeQ c bins : Int) - 1 : Int) : ℚ) ≤ (K : ℚ) := by
      have : ((digitizeQ c bins : Int) - 1 : Int) ≤ (K : Int) := by omega
      exact_mod_cast this
    constructor
    · exact div_nonneg hnum0 (le_of_lt hKpos)
    · exact (div_le_div_iff_of_pos_right hKpos).mpr hnumK
  · rw [← hq']
    exact npUnique_strict_sorted _

/-- Witness for `quantize_levels_bounds` on `{0, 1/2, 1}` with `K = 2`,
where the returned levels are `[0, 1, 2]`. -/
theorem quantize_levels_bounds_witness :
    ([(0 : ℚ), 1/2, 1] ≠ [] ∧ 2 ≤ 2 ∧
        quantize_colors [0, 1/2, 1] 2 = some [0, 1, 2]) ∧
      (1 ≤ ([(0 : ℚ), 1, 2]).length ∧ ([(0 : ℚ), 1, 2]).length ≤ 2 + 1 ∧
        (∀ x ∈ [(0 : ℚ), 1, 2], 0 ≤ x ∧ x ≤ (2 : ℚ) / ((2 : ℚ) - 1)) ∧
        ([(0 : ℚ), 1, 2]).Pairwise (· < ·)) := by
  have hq : quantize_colors [0, 1/2, 1] 2 = some [0, 1, 2] := by
    norm_num [quantize_colors, npUnique, linspaceQ, digitizeQ, listMin, listMax,
      List.insertionSort, List.orderedInsert, List.range_succ, List.filter,
      List.dedup_cons_of_mem, List.dedup_cons_of_not_mem]
  exact ⟨⟨by simp, by norm_num, hq⟩,
    quantize_levels_bounds [0, 1/2, 1] 2 [0, 1, 2] (by simp)
      (by norm_num) (by norm_num) (by norm_num) hq⟩

/-! ### Group naming: sequence and freshness -/

/-- The group names `"{base}.{NN}"` for `NN = 01 .. k` in creation
order. -/
def nameSeq (base : String) (k : Nat) : List String :=
  (List.range k).map (fun i => base ++ "." ++ pad2 (i + 1))

/-- The number of levels in `cs` whose accumulated vertex set meets
`minSize` — the number of groups the creation pass makes. -/
def qualCount (asg : AssignMap) (minSize : Nat) (cs : List ℚ) : Nat :=
  (cs.filter (fun c => decide (minSize ≤ (lookupSet asg c).length))).length

theorem pad2_nodup_100 : (((List.range 100).map pad2)).Nodup := by decide

theorem pad2_inj_le (a b : Nat) (ha : a ≤ 99) (hb : b ≤ 99)
    (h : pad2 a = pad2 b) : a = b :=
  List.inj_on_of_nodup_map pad2_nodup_100
    (List.mem_range.mpr (by omega : a < 100))
    (List.mem_range.mpr (by omega : b < 100)) h

theorem groupName_inj (base s t : String)
    (h : base ++ "." ++ s = base ++ "." ++ t) : s = t := by
  have hd := congrArg String.data h
  simp only [String.data_append] at hd
  rw [List.append_assoc, List.append_assoc] at hd
  exact congrArg String.mk
    (List.append_cancel_left (List.append_cancel_left hd))

theorem nameSeq_succ (base : String) (k : Nat) :
    nameSeq base (k + 1) = nameSeq base k ++ [base ++ "." ++ pad2 (k + 1)] := by
  unfold nameSeq
  rw [List.range_succ, List.map_append]
  rfl

theorem fresh_name (base : String) (k : Nat) (hk : k + 1 ≤ 99) :
    (base ++ "." ++ pad2 (k + 1)) ∉ nameSeq base k := by
  intro hmem
  rcases List.mem_map.mp hmem with ⟨i, hi, heq⟩
  have hik : i < k := List.mem_range.mp hi
  have := pad2_inj_le (i + 1) (k + 1) (by omega) hk
    (groupName_inj base _ _ heq)
  omega

theorem vgGetOrNew_fresh (gs : VGroups) (name : String)
    (h : name ∉ gs.map Prod.fst) :
    vgGetOrNew gs name = gs ++ [(name, [])] := by
  have hany : gs.any (fun g => decide (g.1 = name)) = false := by
    rw [List.any_eq_false]
    intro g hg
    simp only [decide_eq_true_eq]
    intro heq
    exact h (List.mem_map.mpr ⟨g, hg, heq⟩)
  simp [vgGetOrNew, hany]

theorem vgReplace_append_fresh (gs₀ : VGroups) (name : String)
    (m : List (Nat × ℚ)) (v : Nat) (w : ℚ) (h : name ∉ gs₀.map Prod.fst) :
    vgReplace (gs₀ ++ [(name, m)]) name v w =
      gs₀ ++ [(name, entryReplace m v w)] := by
  unfold vgReplace
  rw [List.map_append]
  congr 1
  · have hid : ∀ g ∈ gs₀,
        (if g.1 = name then (g.1, entryReplace g.2 v w) else g) = id g := by
      intro g hg
      rw [if_neg]
      · rfl
      · intro heq
        exact h (List.mem_map.mpr ⟨g, hg, heq⟩)
    rw [List.map_congr_left hid, List.map_id]
  · simp

theorem entryReplace_weights (m : List (Nat × ℚ)) (v : Nat) (w : ℚ)
    (hm : ∀ e ∈ m, e.2 = w) : ∀ e ∈ entryReplace m v w, e.2 = w := by
  unfold entryReplace
  split
  · intro e he
    rcases List.mem_map.mp he with ⟨e₀, he₀, rfl⟩
    split
    · rfl
    · exact hm e₀ he₀
  · intro e he
    rcases List.mem_append.mp he with h | h
    · exact hm e h
    · rw [List.mem_singleton.mp h]

theorem writeGroupLoop_master (name : String) (c : ℚ) (pv? : Option ℚ)
    (thr : ℚ) :
    ∀ (vs : List Nat) (m : List (Nat × ℚ)) (gs₀ gs' : VGroups),
      name ∉ gs₀.map Prod.fst →
      (∀ e ∈ m, ∃ pv, pv? = some pv ∧ e.2 = 1 - |c - pv|) →
      writeGroupLoop name c pv? thr vs (gs₀ ++ [(name, m)]) = .ok gs' →
      ∃ m', gs' = gs₀ ++ [(name, m')] ∧
        ∀ e ∈ m', ∃ pv, pv? = some pv ∧ e.2 = 1 - |c - pv| := by
  intro vs
  induction vs with
  | nil =>
    intro m gs₀ gs' _ hm hw
    unfold writeGroupLoop at hw
    exact ⟨m, ((Except.ok.injEq _ _).mp hw).symm, hm⟩
  | cons v rest ih =>
    intro m gs₀ gs' hfresh hm hw
    unfold writeGroupLoop at hw
    cases hpv : pv? with
    | none => rw [hpv] at hw; simp at hw
    | some pv =>
      subst hpv
      dsimp only [] at hw
      by_cases hthr : thr ≤ 1 - |c - pv|
      · rw [if_pos hthr] at hw
        rw [vgReplace_append_fresh gs₀ name m v (1 - |c - pv|) hfresh] at hw
        apply ih (entryReplace m v (1 - |c - pv|)) gs₀ gs' hfresh _ hw
        have hmw : ∀ e ∈ m, e.2 = 1 - |c - pv| := by
          intro e he
          rcases hm e he with ⟨pv', hpv', hew⟩
          cases Option.some.inj hpv'
          exact hew
        intro e he
        exact ⟨pv, rfl, entryReplace_weights m v (1 - |c - pv|) hmw e he⟩
      · rw [if_neg hthr] at hw
        exact ih m gs₀ gs' hfresh hm hw

theorem samplePass_last (r : Raster) (colors : List ℚ) :
    ∀ (cs : List Corner) (asg : AssignMap) (pv0 : Option ℚ)
      (asg' : AssignMap) (pv' : Option ℚ),
      samplePass r colors cs asg pv0 = .ok (asg', pv') →
      (cs = [] → pv' = pv0) ∧
        (cs ≠ [] → ∃ cn, cs.getLast? = some cn ∧
          pv' = sampleCorner r cn.u cn.v) := by
  intro cs
  induction cs with
  | nil =>
    intro asg pv0 asg' pv' h
    unfold samplePass at h
    simp at h
    exact ⟨fun _ => h.2.symm, fun hne => absurd rfl hne⟩
  | cons cn rest ih =>
    intro asg pv0 asg' pv' h
    unfold samplePass at h
    cases hsc : sampleCorner r cn.u cn.v with
    | none => rw [hsc] at h; simp at h
    | some pv =>
      rw [hsc] at h
      dsimp only [] at h
      cases hmk : pyMinKey (fun c => |c - pv|) colors with
      | none => rw [hmk] at h; simp at h
      | some cc =>
        rw [hmk] at h
        have hrec := ih (asgAdd asg cc cn.vertex) (some pv) asg' pv' h
        refine ⟨?_, fun _ => ?_⟩
        · intro hcontra
          cases hcontra
        cases rest with
        | nil =>
          refine ⟨cn, rfl, ?_⟩
          rw [hrec.1 rfl, hsc]
        | cons r1 rest' =>
          rcases hrec.2 (by simp) with ⟨cn', hlast, hpv⟩
          exact ⟨cn', by rw [List.getLast?_cons_cons]; exact hlast, hpv⟩

theorem qualCount_cons_pos (asg : AssignMap) (minSize : Nat) (c : ℚ)
    (cs : List ℚ) (h : minSize ≤ (lookupSet asg c).length) :
    qualCount asg minSize (c :: cs) = qualCount asg minSize cs + 1 := by
  unfold qualCount
  rw [List.filter_cons_of_pos (by simpa using h)]
  simp

theorem qualCount_cons_neg (asg : AssignMap) (minSize : Nat) (c : ℚ)
    (cs : List ℚ) (h : ¬ minSize ≤ (lookupSet asg c).length) :
    qualCount asg minSize (c :: cs) = qualCount asg minSize cs := by
  unfold qualCount
  rw [List.filter_cons_of_neg (by simpa using h)]

theorem createGroups_master (asg : AssignMap) (pv? : Option ℚ) (thr : ℚ)
    (minSize : Nat) (base : String) :
    ∀ (cs : List ℚ) (k : Nat) (gs gs' : VGroups),
      gs.map Prod.fst = nameSeq base k →
      (∀ g ∈ gs, ∃ c', ∀ e ∈ g.2, ∃ pv, pv? = some pv ∧ e.2 = 1 - |c' - pv|) →
      k + qualCount asg minSize cs ≤ 99 →
      createGroupsAux asg pv? thr minSize base cs k gs = .ok gs' →
      gs'.map Prod.fst = nameSeq base (k + qualCount asg minSize cs) ∧
        ∀ g ∈ gs', ∃ c', ∀ e ∈ g.2, ∃ pv, pv? = some pv ∧
          e.2 = 1 - |c' - pv| := by
  intro cs
  induction cs with
  | nil =>
    intro k gs gs' hname hweight _ hok
    unfold createGroupsAux at hok
    have : gs = gs' := (Except.ok.injEq _ _).mp hok
    subst this
    refine ⟨?_, hweight⟩
    simp [qualCount, hname]
  | cons c cs ih =>
    intro k gs gs' hname hweight hbound hok
    unfold createGroupsAux at hok
    by_cases hsz : minSize ≤ (lookupSet asg c).length
    · rw [if_pos hsz] at hok
      dsimp only [] at hok
      have hq1 : qualCount asg minSize (c :: cs) = qualCount asg minSize cs + 1 :=
        qualCount_cons_pos asg minSize c cs hsz
      have hk99 : k + 1 ≤ 99 := by
        rw [hq1] at hbound
        omega
      have hfresh : (base ++ "." ++ pad2 (k + 1)) ∉ gs.map Prod.fst := by
        rw [hname]
        exact fresh_name base k hk99
      rw [vgGetOrNew_fresh gs _ hfresh] at hok
      cases hw : writeGroupLoop (base ++ "." ++ pad2 (k + 1)) c pv? thr
          (lookupSet asg c) (gs ++ [(base ++ "." ++ pad2 (k + 1), [])]) with
      | error e => rw [hw] at hok; simp at hok
      | ok gs₁ =>
        rw [hw] at hok
        obtain ⟨m', hgs₁, hm'⟩ := writeGroupLoop_master _ c pv? thr
          (lookupSet asg c) [] gs gs₁ hfresh (by intro e he; cases he) hw
        subst hgs₁
        have hname₁ : (gs ++ [(base ++ "." ++ pad2 (k + 1), m')]).map Prod.fst =
            nameSeq base (k + 1) := by
          rw [List.map_append, hname, nameSeq_succ]
          rfl
        have hweight₁ : ∀ g ∈ gs ++ [(base ++ "." ++ pad2 (k + 1), m')],
            ∃ c', ∀ e ∈ g.2, ∃ pv, pv? = some pv ∧ e.2 = 1 - |c' - pv| := by
          intro g hg
          rcases List.mem_append.mp hg with hg | hg
          · exact hweight g hg
          · rw [List.mem_singleton.mp hg]
            exact ⟨c, hm'⟩
        have hrec := ih (k + 1) _ gs' hname₁ hweight₁
          (by rw [hq1] at hbound; omega) hok
        refine ⟨?_, hrec.2⟩
        rw [hrec.1, hq1]
        congr 1
        omega
    · rw [if_neg hsz] at hok
      have hq1 : qualCount asg minSize (c :: cs) = qualCount asg minSize cs :=
        qualCount_cons_neg asg minSize c cs hsz
      rw [hq1]
      exact ih k gs gs' hname hweight (by rw [hq1] at hbound; exact hbound) hok

theorem assign_vertex_groups_ok_destruct (obj : Obj) (colors : List ℚ)
    (img : Raster) (thr : ℚ) (minSize : Nat) (base : String) (gs' : VGroups)
    (asg : AssignMap) (pv? : Option ℚ)
    (hsp : samplePass img colors (cornersOf obj.mesh)
      (initAssignments colors) none = .ok (asg, pv?))
    (hok : assign_vertex_groups obj colors img thr minSize base = .ok gs') :
    createGroupsAux asg pv? thr minSize base (pySorted (asg.map Prod.fst)) 0
      obj.vertex_groups = .ok gs' := by
  unfold assign_vertex_groups at hok
  by_cases huv : obj.mesh.hasActiveUV = false
  · rw [if_pos huv] at hok
    simp at hok
  · rw [if_neg huv] at hok
    by_cases hre : img.pixels.length ≠ img.height * img.width * img.channels
    · rw [if_pos hre] at hok
      simp at hok
    · rw [if_neg hre] at hok
      rw [hsp] at hok
      dsimp only [] at hok
      exact hok

/-- C7 (confirmed): a level whose accumulated vertex set has fewer than
`min_group_size` members produces no group and does not consume a
sequence number: after a successful run starting from an object with no
pre-existing vertex groups, the group list's names are exactly
`base.01, base.02, …` — one per level meeting the size threshold, with no
gaps.  (The bound of 99 created groups keeps every `NN` a genuine
two-digit zero-padded counter value, matching the claim's `"{NN}"`
format; Python's `f"{n:02d}"` would silently widen past 99.) -/
theorem group_naming_sequential (obj : Obj) (colors : List ℚ) (img : Raster)
    (thr : ℚ) (minSize : Nat) (base : String) (asg : AssignMap)
    (pv? : Option ℚ) (gs' : VGroups)
    (hsp : samplePass img colors (cornersOf obj.mesh)
      (initAssignments colors) none = .ok (asg, pv?))
    (hinit : obj.vertex_groups = [])
    (hbound : qualCount asg minSize (pySorted (asg.map Prod.fst)) ≤ 99)
    (hok : assign_vertex_groups obj colors img thr minSize base = .ok gs') :
    gs'.map Prod.fst =
      nameSeq base (qualCount asg minSize (pySorted (asg.map Prod.fst))) := by
  have hcg := assign_vertex_groups_ok_destruct obj colors img thr minSize base
    gs' asg pv? hsp hok
  rw [hinit] at hcg
  have hmaster := createGroups_master asg pv? thr minSize base
    (pySorted (asg.map Prod.fst)) 0 [] gs' (by simp [nameSeq])
    (by intro g hg; cases hg) (by simpa using hbound) hcg
  simpa using hmaster.1

/-- Witness for `group_naming_sequential`: colors `{0, 1}` over a 1×1
raster holding 1 with a single corner; level 0's set is empty and is
skipped without consuming a number, level 1 becomes `g.01`. -/
theorem group_naming_sequential_witness :
    samplePass ⟨1, 1, 1, [1]⟩ [0, 1]
        (cornersOf (MeshData.mk true [[⟨0, 0, 0⟩]]))
        (initAssignments [0, 1]) none = .ok ([(0, []), (1, [0])], some 1) ∧
      assign_vertex_groups ⟨⟨true, [[⟨0, 0, 0⟩]]⟩, []⟩ [0, 1] ⟨1, 1, 1, [1]⟩
          0 1 "g" = .ok [("g.01", [(0, 1)])] ∧
      ([("g.01", [((0 : Nat), (1 : ℚ))])]).map Prod.fst =
        nameSeq "g"
          (qualCount [((0 : ℚ), []), (1, [0])] 1
            (pySorted ([((0 : ℚ), []), (1, [0])].map Prod.fst))) := by
  have hsp : samplePass ⟨1, 1, 1, [1]⟩ [0, 1]
      (cornersOf (MeshData.mk true [[⟨0, 0, 0⟩]]))
      (initAssignments [0, 1]) none = .ok ([(0, []), (1, [0])], some 1) := by
    norm_num [samplePass, cornersOf, initAssignments, sampleCorner, pixelChunk,
      listMean, truncInt, normIdx, pyMinKey, asgAdd,
      List.dedup_cons_of_mem, List.dedup_cons_of_not_mem]
  have hok : assign_vertex_groups ⟨⟨true, [[⟨0, 0, 0⟩]]⟩, []⟩ [0, 1]
      ⟨1, 1, 1, [1]⟩ 0 1 "g" = .ok [("g.01", [(0, 1)])] := by
    norm_num [assign_vertex_groups, samplePass, createGroupsAux, cornersOf,
      initAssignments, asgAdd, lookupSet, pyMinKey, pySorted, sampleCorner,
      pixelChunk, listMean, truncInt, normIdx, writeGroupLoop, vgGetOrNew,
      vgReplace, entryReplace, pad2, noUVMsg, List.insertionSort,
      List.orderedInsert, List.dedup_cons_of_mem, List.dedup_cons_of_not_mem,
      List.filter, List.find?]
    rfl
  refine ⟨hsp, hok, ?_⟩
  exact group_naming_sequential ⟨⟨true, [[⟨0, 0, 0⟩]]⟩, []⟩ [0, 1]
    ⟨1, 1, 1, [1]⟩ 0 1 "g" [(0, []), (1, [0])] (some 1) [("g.01", [(0, 1)])]
    hsp rfl (by norm_num [qualCount, lookupSet, pySorted, List.insertionSort,
      List.orderedInsert, List.filter, List.find?]) hok

/-- C10 (confirmed): in a successful group-assignment run starting from
an object with no pre-existing groups, every vertex written into any one
created group receives the identical weight `1.0 - |level - pv|`, where
`pv` is the single `pixel_value` retained by the loop variable after the
sampling pass — the intensity sampled at the final face-corner processed
over the whole mesh — independent of the individual vertex. -/
theorem group_weight_uniform (obj : Obj) (colors : List ℚ) (img : Raster)
    (thr : ℚ) (minSize : Nat) (base : String) (asg : AssignMap)
    (pv? : Option ℚ) (gs' : VGroups)
    (hsp : samplePass img colors (cornersOf obj.mesh)
      (initAssignments colors) none = .ok (asg, pv?))
    (hinit : obj.vertex_groups = [])
    (hbound : qualCount asg minSize (pySorted (asg.map Prod.fst)) ≤ 99)
    (hok : assign_vertex_groups obj colors img thr minSize base = .ok gs') :
    (∀ g ∈ gs', ∃ c',
        (∀ e ∈ g.2, ∃ pv, pv? = some pv ∧ e.2 = 1 - |c' - pv|) ∧
          ∀ e1 ∈ g.2, ∀ e2 ∈ g.2, e1.2 = e2.2) ∧
      (cornersOf obj.mesh ≠ [] → ∃ cn,
        (cornersOf obj.mesh).getLast? = some cn ∧
          pv? = sampleCorner img cn.u cn.v) := by
  have hcg := assign_vertex_groups_ok_destruct obj colors img thr minSize base
    gs' asg pv? hsp hok
  rw [hinit] at hcg
  have hmaster := createGroups_master asg pv? thr minSize base
    (pySorted (asg.map Prod.fst)) 0 [] gs' (by simp [nameSeq])
    (by intro g hg; cases hg) (by simpa using hbound) hcg
  constructor
  · intro g hg
    rcases hmaster.2 g hg with ⟨c', hc'⟩
    refine ⟨c', hc', ?_⟩
    intro e1 he1 e2 he2
    rcases hc' e1 he1 with ⟨pv1, hpv1, hw1⟩
    rcases hc' e2 he2 with ⟨pv2, hpv2, hw2⟩
    rw [hpv1] at hpv2
    rw [hw1, hw2, Option.some.inj hpv2]
  · exact (samplePass_last img colors (cornersOf obj.mesh)
      (initAssignments colors) none asg pv? hsp).2

/-- Witness for `group_weight_uniform`: the two-corner mesh over the 2×1
raster `[0, 1]`; both created groups' weights are computed from the
final sample 1. -/
theorem group_weight_uniform_witness :
    samplePass ⟨2, 1, 1, [0, 1]⟩ [0, 1]
        (cornersOf (MeshData.mk true [[⟨0, 0, 0⟩, ⟨1, 1, 0⟩]]))
        (initAssignments [0, 1]) none =
      .ok ([(0, [0]), (1, [1])], some 1) ∧
      (∀ g ∈ [(("group.01" : String), [((0 : Nat), (0 : ℚ))]),
          ("group.02", [(1, 1)])], ∃ c',
        (∀ e ∈ g.2, ∃ pv, (some (1 : ℚ)) = some pv ∧ e.2 = 1 - |c' - pv|) ∧
          ∀ e1 ∈ g.2, ∀ e2 ∈ g.2, e1.2 = e2.2) := by
  have hsp : samplePass ⟨2, 1, 1, [0, 1]⟩ [0, 1]
      (cornersOf (MeshData.mk true [[⟨0, 0, 0⟩, ⟨1, 1, 0⟩]]))
      (initAssignments [0, 1]) none =
        .ok ([(0, [0]), (1, [1])], some 1) := by
    norm_num [samplePass, cornersOf, initAssignments, sampleCorner, pixelChunk,
      listMean, truncInt, normIdx, pyMinKey, asgAdd,
      List.dedup_cons_of_mem, List.dedup_cons_of_not_mem]
  have hok : assign_vertex_groups ⟨⟨true, [[⟨0, 0, 0⟩, ⟨1, 1, 0⟩]]⟩, []⟩ [0, 1]
      ⟨2, 1, 1, [0, 1]⟩ 0 1 "group" =
        .ok [("group.01", [(0, 0)]), ("group.02", [(1, 1)])] := by
    norm_num [assign_vertex_groups, samplePass, createGroupsAux, cornersOf,
      initAssignments, asgAdd, lookupSet, pyMinKey, pySorted, sampleCorner,
      pixelChunk, listMean, truncInt, normIdx, writeGroupLoop, vgGetOrNew,
      vgReplace, entryReplace, pad2, noUVMsg, List.insertionSort,
      List.orderedInsert, List.dedup_cons_of_mem, List.dedup_cons_of_not_mem,
      List.filter, List.find?]
    rfl
  refine ⟨hsp, ?_⟩
  exact (group_weight_uniform ⟨⟨true, [[⟨0, 0, 0⟩, ⟨1, 1, 0⟩]]⟩, []⟩ [0, 1]
    ⟨2, 1, 1, [0, 1]⟩ 0 1 "group" [(0, [0]), (1, [1])] (some 1)
    [("group.01", [(0, 0)]), ("group.02", [(1, 1)])] hsp rfl
    (by norm_num [qualCount, lookupSet, pySorted, List.insertionSort,
      List.orderedInsert, List.filter, List.find?]) hok).1

end VGTex
